import Mathlib

/-!
Verification development for `fvss.cpp`

A shallow embedding of the share dealer, the share check and the reconstruction
routine of `fvss.cpp`, followed by theorems about them.

Conventions of the embedding

* The C++ type `int` is embedded as `Int` (exact arithmetic).  Signed overflow is
  undefined in C++, so the exact value is the only defined result; bounds such as
  `INT_MAX` appear as hypotheses where the width of a type matters.
* `std::size_t` is 64 bits wide; conversions to it and subtraction in it are
  written with an explicit remainder modulo `2 ^ 64`.
* An operation with undefined behaviour (remainder by zero, `INT_MIN % -1`, a vector
  read past the end) yields `none`; a function that can reach one returns an `Option`.
* The random source is an explicit argument `draw : Nat → Int`, the value of the
  `i`-th call of `generate_random_int`.
-/

namespace FVSS

/-! ## Machine constants -/

/-- Largest value of the 32-bit C++ type `int`. -/
def INT_MAX : Int := 2147483647

/-- Smallest value of the 32-bit C++ type `int`. -/
def INT_MIN : Int := -2147483648

/-- Largest value of the 64-bit type `std::size_t`. -/
def SIZE_MAX : Nat := 18446744073709551615

/-- Conversion of an `int` operand to `std::size_t` (reduction modulo `2 ^ 64`). -/
def toSizeT (v : Int) : Nat := (v % ((SIZE_MAX : Int) + 1)).toNat

/-- The C++ operator `%` on `int`: truncated remainder, undefined for a zero divisor and
for `INT_MIN % -1` (the quotient is not representable). -/
def rem (a p : Int) : Option Int :=
  if p = 0 ∨ (a = INT_MIN ∧ p = -1) then none else some (Int.tmod a p)

/-! ## Data model -/

/-- A share is a pair `(x, y)`: the share index and the polynomial value at `x`. -/
structure Share where
  x : Int
  y : Int
deriving DecidableEq, Repr

/-! ## `invmod` -/

/-- The `while (r2 > 0)` loop of `invmod`, on the state `(r1, r2, t1, t2)`; returns the
final `(r1, t1)`.  The first argument bounds the number of iterations. -/
def invmodLoop : Nat → Int → Int → Int → Int → Int × Int
  | 0, r1, _, t1, _ => (r1, t1)
  | fuel + 1, r1, r2, t1, t2 =>
    if r2 > 0 then
      let q := Int.tdiv r1 r2
      let r := r1 - q * r2
      let t := t1 - q * t2
      invmodLoop fuel r2 r t2 t
    else (r1, t1)

/-- `invmod(a, p)`.  The loop is run with `a.toNat + 1` iterations available, which it
never exhausts (`invmodLoop_fuel`). -/
def invmod (a p : Int) : Int :=
  let r1t1 := invmodLoop (a.toNat + 1) p a 0 1
  if r1t1.1 > 1 then -1
  else if r1t1.2 < 0 then r1t1.2 + p
  else r1t1.2

/-! ## Polynomials -/

/-- `generate_random_polynomial(k, p)`: `k + 1` coefficients, the `i`-th one being the
`i`-th value `draw i` of the random source.  The source draws from `[0, p - 1]`, a
range that exists only for `p > 0`; statements about the dealer assume `0 < p`. -/
def generate_random_polynomial (k : Nat) (_p : Int) (draw : Nat → Int) : List Int :=
  (List.range (k + 1)).map draw

/-- `evaluate_polynomial(coefficients, x, p)`: Horner's rule from the last coefficient
down to the first, `result = (result * x + coefficients[i]) % p` at every step. -/
def evaluate_polynomial : List Int → Int → Int → Option Int
  | [], _, _ => some 0
  | c :: cs, x, p =>
    match evaluate_polynomial cs x p with
    | none => none
    | some result => rem (result * x + c) p

/-! ## Dealer -/

/-- The loop `for (i = 0; i <= k; i++) shares[i] = {i, evaluate_polynomial(coefficients, i, p)}`
of `distribute_commitments`, from index `i` for `n` more iterations. -/
def sharesLoop (coefficients : List Int) (p : Int) : Nat → Nat → Option (List Share)
  | _, 0 => some []
  | i, n + 1 =>
    match evaluate_polynomial coefficients (i : Int) p with
    | none => none
    | some y =>
      match sharesLoop coefficients p (i + 1) n with
      | none => none
      | some rest => some (⟨(i : Int), y⟩ :: rest)

/-- `distribute_commitments(k, secret, p)`. -/
def distribute_commitments (k : Nat) (secret p : Int) (draw : Nat → Int) :
    Option (List Share) :=
  let coefficients := (generate_random_polynomial k p draw).set 0 secret
  sharesLoop coefficients p 0 (k + 1)

/-! ## Share check -/

/-- `verify_share(share, p, commitments)`. -/
def verify_share (share : Share) (p : Int) (commitments : List Share) : Option Bool :=
  if share.x < 0 ∨ toSizeT share.x > toSizeT ((commitments.length : Int) - 1) then
    some false
  else
    match commitments[toSizeT share.x]? with
    | none => none
    | some c =>
      match evaluate_polynomial [c.y] share.x p with
      | none => none
      | some expected_y => if share.y ≠ expected_y then some false else some true

/-! ## Reconstruction -/

/-- First loop of `reconstruct_secret`: counts the shares accepted by `verify_share`. -/
def countValid (p : Int) (commitments : List Share) : List Share → Int → Option Int
  | [], num_valid_shares => some num_valid_shares
  | share :: rest, num_valid_shares =>
    match verify_share share p commitments with
    | none => none
    | some true => countValid p commitments rest (num_valid_shares + 1)
    | some false => countValid p commitments rest num_valid_shares

/-- Inner loop of the interpolation for the share at position `i` with index `xi`:
the loop variable `j` runs over the remaining shares, the state is
`(numerator, denominator)`. -/
def lagrangeLoop (i : Nat) (xi p : Int) : Nat → List Share → Int × Int → Option (Int × Int)
  | _, [], nd => some nd
  | j, sj :: rest, nd =>
    if i = j then lagrangeLoop i xi p (j + 1) rest nd
    else
      match rem (nd.1 * (sj.x - xi)) p with
      | none => none
      | some numerator =>
        match rem (nd.2 * (xi - sj.x)) p with
        | none => none
        | some denominator => lagrangeLoop i xi p (j + 1) rest (numerator, denominator)

/-- Outer loop of the interpolation: `i` is the position of the next share, the state is
`secret`. -/
def interpolateLoop (shares : List Share) (p : Int) (commitments : List Share) :
    Nat → List Share → Int → Option Int
  | _, [], secret => some secret
  | i, si :: rest, secret =>
    match verify_share si p commitments with
    | none => none
    | some false => interpolateLoop shares p commitments (i + 1) rest secret
    | some true =>
      match lagrangeLoop i si.x p 0 shares (1, 1) with
      | none => none
      | some nd =>
        match rem (secret + si.y * nd.1 * invmod nd.2 p) p with
        | none => none
        | some secret' => interpolateLoop shares p commitments (i + 1) rest secret'

/-- `reconstruct_secret(k, shares, p, commitments)`.  The argument `k` is not read. -/
def reconstruct_secret (_k : Nat) (shares : List Share) (p : Int)
    (commitments : List Share) : Option Int :=
  match countValid p commitments shares 0 with
  | none => none
  | some num_valid_shares =>
    if num_valid_shares < 2 then some (-1)
    else interpolateLoop shares p commitments 0 shares 0

/-! ## Auxiliary definitions used in the statements -/

/-- Value of the Horner loop of `evaluate_polynomial` when the modulus is positive
(the loop then has no undefined step); see `evaluate_polynomial_eq`. -/
def hornerValue : List Int → Int → Int → Int
  | [], _, _ => 0
  | c :: cs, x, p => Int.tmod (hornerValue cs x p * x + c) p

/-- Right-hand side of the verification equation of the specification,
`Π_i C_i ^ (x ^ i) mod p`, the commitments `C_i` being read from the `.y` fields;
`i` is the position of the head of the list. -/
def feldmanProduct (p x : Nat) : Nat → List Share → Nat
  | _, [] => 1 % p
  | i, c :: cs => (c.y.toNat ^ (x ^ i) * feldmanProduct p x (i + 1) cs) % p

/-- The verification equation of the specification for the share `(x, y)`:
`g ^ y ≡ Π_i C_i ^ (x ^ i) (mod p)`. -/
def feldmanEquation (g p : Nat) (commitments : List Share) (x y : Nat) : Prop :=
  g ^ y % p = feldmanProduct p x 0 commitments

/-! ## Modulus selection -/

/-- `generate_p(q)`.  The argument list holds the values returned by the successive
calls `dist(rng)`, in order: the first one initialises `p`, each further one is
consumed by one iteration of `while (p % q != 1)`.  The result is `none` when a
remainder `p % q` is undefined (`q = 0`, or `INT_MIN % -1`) or when the loop is still
running after the last listed draw. -/
def generate_p (q : Int) : List Int → Option Int
  | [] => none
  | p :: draws =>
    match rem p q with
    | none => none
    | some r => if r ≠ 1 then generate_p q draws else some p

/-! ## Evaluation in 32-bit arithmetic -/

/-- Reduction of an exact integer to the 32-bit two's complement value with the same
residue modulo `2 ^ 32`. -/
def wrap32 (v : Int) : Int := (v + 2147483648) % 4294967296 - 2147483648

/-- `evaluate_polynomial` with the value of `result * x + coefficients[i]` wrapped
around modulo `2 ^ 32` before the remainder is taken.  The second component records
whether the exact value of that expression left the range of `int` at some step. -/
def evaluate_polynomial32 : List Int → Int → Int → Option (Int × Bool)
  | [], _, _ => some (0, false)
  | c :: cs, x, p =>
    match evaluate_polynomial32 cs x p with
    | none => none
    | some (result, overflowed) =>
      match rem (wrap32 (result * x + c)) p with
      | none => none
      | some result' =>
        some (result', overflowed || decide (result * x + c > INT_MAX ∨ result * x + c < INT_MIN))

/-! ## The polynomial of the specification -/

/-- The value `Σ_i c_i * x ^ i` of the polynomial with coefficient list `c` at `x`. -/
def polynomialSum (coefficients : List Int) (x : Int) : Int :=
  ((List.range coefficients.length).map (fun i => coefficients.getD i 0 * x ^ i)).sum

/-! ## Arithmetic lemmas -/

theorem rem_of_pos (a : Int) {p : Int} (hp : 0 < p) : rem a p = some (Int.tmod a p) := by
  have h0 : p ≠ 0 := by omega
  have h1 : p ≠ -1 := by omega
  simp [rem, h0, h1]

theorem rem_eq_some {a p r : Int} (h : rem a p = some r) : r = Int.tmod a p := by
  unfold rem at h
  split at h
  · cases h
  · exact (Option.some.inj h).symm

theorem rem_zero (a : Int) : rem a 0 = none := by
  simp [rem]

/-- The remainder `INT_MIN % -1` is undefined, and so is a share check that reaches it. -/
theorem rem_int_min_neg_one :
    rem INT_MIN (-1) = none ∧ verify_share ⟨0, 0⟩ (-1) [⟨0, INT_MIN⟩] = none := by
  refine ⟨by decide, by decide⟩

theorem tmod_neg_natCast (k n : Nat) :
    Int.tmod (-(k : Int)) (n : Int) = -((k % n : Nat) : Int) := by
  cases k with
  | zero => simp
  | succ k => rfl

/-- The truncated remainder is idempotent. -/
theorem tmod_tmod_self (a p : Int) : Int.tmod (Int.tmod a p) p = Int.tmod a p := by
  obtain ⟨n, rfl | rfl⟩ := Int.eq_nat_or_neg p
  all_goals obtain ⟨k, rfl | rfl⟩ := Int.eq_nat_or_neg a
  all_goals simp only [Int.tmod_neg, tmod_neg_natCast, ← Int.ofNat_tmod, Nat.mod_mod]

theorem toSizeT_of_nonneg {v : Int} (h0 : 0 ≤ v) (h1 : v ≤ (SIZE_MAX : Int)) :
    toSizeT v = v.toNat := by
  unfold toSizeT
  rw [Int.emod_eq_of_lt h0 (by omega)]

theorem toSizeT_neg_one : toSizeT (-1) = SIZE_MAX := by
  decide

theorem toSizeT_zero : toSizeT 0 = 0 := by
  decide

/-! ## The loop of `invmod` never exhausts its iteration bound -/

/-- Any two iteration bounds above `r2` give the same result: the bound is never
the reason the loop stops. -/
theorem invmodLoop_fuel (fuel fuel' : Nat) (r1 r2 t1 t2 : Int)
    (h : r2.toNat < fuel) (h' : r2.toNat < fuel') :
    invmodLoop fuel r1 r2 t1 t2 = invmodLoop fuel' r1 r2 t1 t2 := by
  induction fuel generalizing fuel' r1 r2 t1 t2 with
  | zero => omega
  | succ n ih =>
    cases fuel' with
    | zero => omega
    | succ n' =>
      simp only [invmodLoop]
      split
      · rename_i hr2
        have hlt : r1 - Int.tdiv r1 r2 * r2 < r2 := by
          have h1 := Int.tmod_lt_of_pos r1 hr2
          have h2 := Int.tmod_def r1 r2
          have h3 : Int.tdiv r1 r2 * r2 = r2 * Int.tdiv r1 r2 := Int.mul_comm _ _
          omega
        apply ih <;> omega
      · rfl

/-! ## Lemmas on `evaluate_polynomial` and the dealer -/

theorem evaluate_polynomial_eq (cs : List Int) (x : Int) {p : Int} (hp : 0 < p) :
    evaluate_polynomial cs x p = some (hornerValue cs x p) := by
  induction cs with
  | nil => rfl
  | cons c cs ih => simp [evaluate_polynomial, hornerValue, ih, rem_of_pos _ hp]

theorem evaluate_polynomial_singleton (c x p : Int) :
    evaluate_polynomial [c] x p = rem c p := by
  simp [evaluate_polynomial]

/-- A value returned for a non-empty coefficient list is already reduced. -/
theorem hornerValue_tmod (c : Int) (cs : List Int) (x p : Int) :
    Int.tmod (hornerValue (c :: cs) x p) p = hornerValue (c :: cs) x p := by
  simp only [hornerValue, tmod_tmod_self]

theorem sharesLoop_eq (cs : List Int) {p : Int} (hp : 0 < p) (i n : Nat) :
    sharesLoop cs p i n
      = some ((List.range' i n).map (fun j : Nat => (⟨(j : Int), hornerValue cs (j : Int) p⟩ : Share))) := by
  induction n generalizing i with
  | zero => rfl
  | succ n ih =>
    simp [sharesLoop, evaluate_polynomial_eq cs _ hp, ih, List.range'_succ]

/-- For a positive modulus the dealer returns the shares `(i, f(i))`, `i = 0, …, k`. -/
theorem distribute_commitments_eq (k : Nat) (secret : Int) {p : Int} (hp : 0 < p)
    (draw : Nat → Int) :
    distribute_commitments k secret p draw
      = some ((List.range' 0 (k + 1)).map (fun j : Nat =>
          (⟨(j : Int),
            hornerValue ((generate_random_polynomial k p draw).set 0 secret) (j : Int) p⟩ : Share))) := by
  unfold distribute_commitments
  exact sharesLoop_eq _ hp 0 (k + 1)

/-! ## Lemmas on `verify_share` -/

/-- Outside `[0, size - 1]` the range check answers `false`. -/
theorem verify_share_out_of_range (share : Share) (p : Int) (commitments : List Share)
    (hne : commitments ≠ []) (hlen : commitments.length ≤ SIZE_MAX)
    (hx : share.x ≤ INT_MAX)
    (hout : share.x < 0 ∨ share.x > (commitments.length : Int) - 1) :
    verify_share share p commitments = some false := by
  have hpos : 0 < commitments.length := List.length_pos.mpr hne
  unfold verify_share
  rw [if_pos]
  rcases hout with h | h
  · exact Or.inl h
  · by_cases hneg : share.x < 0
    · exact Or.inl hneg
    · right
      have hx' : share.x ≤ (SIZE_MAX : Int) := by
        simp only [INT_MAX, SIZE_MAX] at *
        omega
      rw [toSizeT_of_nonneg (by omega) hx', toSizeT_of_nonneg (by omega) (by omega)]
      omega

/-- Inside `[0, size - 1]` the answer is the comparison of `share.y` with
`commitments[share.x].y % p`. -/
theorem verify_share_in_range (x y : Int) {p : Int} (hp : 0 < p) (commitments : List Share)
    (hlen : commitments.length ≤ SIZE_MAX) (h0 : 0 ≤ x) (h1 : x < commitments.length)
    (c : Share) (hc : commitments[x.toNat]? = some c) :
    verify_share ⟨x, y⟩ p commitments = some (decide (y = Int.tmod c.y p)) := by
  unfold verify_share
  have hx' : x ≤ (SIZE_MAX : Int) := by omega
  have hcheck : ¬ (x < 0 ∨ toSizeT x > toSizeT ((commitments.length : Int) - 1)) := by
    rw [toSizeT_of_nonneg h0 hx', toSizeT_of_nonneg (by omega) (by omega)]
    omega
  rw [if_neg hcheck]
  simp only [toSizeT_of_nonneg h0 hx', hc, evaluate_polynomial_singleton, rem_of_pos _ hp]
  by_cases hy : y = Int.tmod c.y p <;> simp [hy]

/-! ## Claims C1 to C3: reconstruction from dealer shares -/

/-- C1 (round trip), evaluated at the prime `p = 509`, degree `k = 1`, secret `17` and
random draw `5`: the dealer returns the shares `(0, 17)` and `(1, 22)`, both accepted
against themselves as commitment set, and `reconstruct_secret` returns `-39`, not the
secret `17`. -/
theorem C1_round_trip_violated :
    Nat.Prime 509 ∧
    distribute_commitments 1 17 509 (fun _ => 5) = some [⟨0, 17⟩, ⟨1, 22⟩] ∧
    verify_share ⟨0, 17⟩ 509 [⟨0, 17⟩, ⟨1, 22⟩] = some true ∧
    verify_share ⟨1, 22⟩ 509 [⟨0, 17⟩, ⟨1, 22⟩] = some true ∧
    reconstruct_secret 1 [⟨0, 17⟩, ⟨1, 22⟩] 509 [⟨0, 17⟩, ⟨1, 22⟩] = some (-39) := by
  refine ⟨by norm_num, by decide, by decide, by decide, by decide⟩

/-- C2 (any 2 of the 4 shares), evaluated in the configuration of `main` (`k = 3`, the
commitment set is the first three shares) at `p = 509`, secret `17` and draws `2, 3, 4`:
from the shares at `x = 1` and `x = 3` the function returns the failure value `-1`, and
from the shares at `x = 1` and `x = 2` it returns `-91`; neither is the secret `17`. -/
theorem C2_two_of_four_violated :
    Nat.Prime 509 ∧
    distribute_commitments 3 17 509 (fun i => (i : Int) + 1)
      = some [⟨0, 17⟩, ⟨1, 26⟩, ⟨2, 65⟩, ⟨3, 158⟩] ∧
    reconstruct_secret 3 [⟨1, 26⟩, ⟨3, 158⟩] 509 [⟨0, 17⟩, ⟨1, 26⟩, ⟨2, 65⟩] = some (-1) ∧
    reconstruct_secret 3 [⟨1, 26⟩, ⟨2, 65⟩] 509 [⟨0, 17⟩, ⟨1, 26⟩, ⟨2, 65⟩] = some (-91) := by
  refine ⟨by norm_num, by decide, by decide, by decide⟩

/-- C3 (selection independence), evaluated at `p = 509`, `k = 3`, secret `17`, draws
`2, 3, 4`, with all four dealer shares as commitment set: the two-element subsets
`{x = 0, x = 1}` and `{x = 1, x = 2}` reconstruct `-43` and `-91`, which differ (also
modulo `509`). -/
theorem C3_selection_dependence :
    Nat.Prime 509 ∧
    distribute_commitments 3 17 509 (fun i => (i : Int) + 1)
      = some [⟨0, 17⟩, ⟨1, 26⟩, ⟨2, 65⟩, ⟨3, 158⟩] ∧
    reconstruct_secret 3 [⟨0, 17⟩, ⟨1, 26⟩] 509 [⟨0, 17⟩, ⟨1, 26⟩, ⟨2, 65⟩, ⟨3, 158⟩]
      = some (-43) ∧
    reconstruct_secret 3 [⟨1, 26⟩, ⟨2, 65⟩] 509 [⟨0, 17⟩, ⟨1, 26⟩, ⟨2, 65⟩, ⟨3, 158⟩]
      = some (-91) ∧
    (-43 : Int) % 509 ≠ (-91 : Int) % 509 := by
  refine ⟨by norm_num, by decide, by decide, by decide, by decide⟩

/-! ## Claim C4: what `verify_share` checks -/

/-- C4 as stated fails: for the prime `p = 7`, the element `g = 2` of order `q = 3`,
the coefficients `a = (1, 2)` and the commitments `C = (g ^ 1, g ^ 2) = (2, 4)`, the
share `(1, 3)` of `f(x) = 1 + 2 x` satisfies the verification equation
`g ^ y ≡ Π C_i ^ (x ^ i) (mod p)`, yet `verify_share` returns `false`. -/
theorem C4_feldman_equation_not_checked :
    Nat.Prime 7 ∧ Nat.Prime 3 ∧ 2 ^ 3 % 7 = 1 ∧ 2 ^ 1 % 7 ≠ 1 ∧
    ([⟨0, 2⟩, ⟨1, 4⟩] : List Share) = [⟨0, ((2 ^ 1 % 7 : Nat) : Int)⟩, ⟨1, ((2 ^ 2 % 7 : Nat) : Int)⟩] ∧
    feldmanEquation 2 7 [⟨0, 2⟩, ⟨1, 4⟩] 1 3 ∧
    verify_share ⟨1, 3⟩ 7 [⟨0, 2⟩, ⟨1, 4⟩] = some false ∧
    ¬ (verify_share ⟨1, 3⟩ 7 [⟨0, 2⟩, ⟨1, 4⟩] = some true
        ↔ feldmanEquation 2 7 [⟨0, 2⟩, ⟨1, 4⟩] 1 3) := by
  have hF : feldmanEquation 2 7 [⟨0, 2⟩, ⟨1, 4⟩] 1 3 := by
    unfold feldmanEquation
    decide
  have hV : verify_share ⟨1, 3⟩ 7 [⟨0, 2⟩, ⟨1, 4⟩] = some false := by decide
  refine ⟨by norm_num, by norm_num, by decide, by decide, by decide, hF, hV, ?_⟩
  intro h
  have := h.mpr hF
  rw [hV] at this
  cases this

/-- C4 as amended: for a modulus `p > 0`, a non-empty commitment set and a share `(x, y)`,
`verify_share` returns a verdict, and the verdict is `true` exactly when `x` lies in
`[0, size - 1]` and `y` equals `commitments[x].y % p`. -/
theorem C4_verify_share_compares_commitment (x y p : Int) (commitments : List Share)
    (hp : 0 < p) (hne : commitments ≠ []) (hlen : commitments.length ≤ SIZE_MAX)
    (hx : x ≤ INT_MAX) :
    (∃ b, verify_share ⟨x, y⟩ p commitments = some b) ∧
    (verify_share ⟨x, y⟩ p commitments = some true ↔
      0 ≤ x ∧ x ≤ (commitments.length : Int) - 1 ∧
        ∃ c, commitments[x.toNat]? = some c ∧ y = Int.tmod c.y p) := by
  by_cases hout : x < 0 ∨ x > (commitments.length : Int) - 1
  · have hv := verify_share_out_of_range ⟨x, y⟩ p commitments hne hlen hx hout
    refine ⟨⟨false, hv⟩, ?_⟩
    rw [hv]
    constructor
    · intro h
      cases h
    · rintro ⟨h0, h1, -⟩
      omega
  · have h0 : 0 ≤ x := by omega
    have h1 : x < (commitments.length : Int) := by omega
    have hidx : x.toNat < commitments.length := by omega
    have hc : commitments[x.toNat]? = some (commitments[x.toNat]) :=
      List.getElem?_eq_getElem hidx
    have hv := verify_share_in_range x y hp commitments hlen h0 h1 _ hc
    refine ⟨⟨_, hv⟩, ?_⟩
    rw [hv]
    constructor
    · intro h
      refine ⟨h0, by omega, _, hc, ?_⟩
      simpa using h
    · rintro ⟨-, -, c, hc', hy⟩
      rw [hc] at hc'
      cases hc'
      simp [hy]

/-- Instance of `C4_verify_share_compares_commitment` at the share `(1, 4)`, `p = 7` and the
commitment set `(0, 2), (1, 4)`. -/
theorem C4_verify_share_compares_commitment_witness :
    (0 : Int) < 7 ∧ ([⟨0, 2⟩, ⟨1, 4⟩] : List Share) ≠ [] ∧
    ([⟨0, 2⟩, ⟨1, 4⟩] : List Share).length ≤ SIZE_MAX ∧ (1 : Int) ≤ INT_MAX ∧
    ((∃ b, verify_share ⟨1, 4⟩ 7 [⟨0, 2⟩, ⟨1, 4⟩] = some b) ∧
     (verify_share ⟨1, 4⟩ 7 [⟨0, 2⟩, ⟨1, 4⟩] = some true ↔
      (0 : Int) ≤ 1 ∧ (1 : Int) ≤ (([⟨0, 2⟩, ⟨1, 4⟩] : List Share).length : Int) - 1 ∧
        ∃ c, ([⟨0, 2⟩, ⟨1, 4⟩] : List Share)[(1 : Int).toNat]? = some c ∧
          (4 : Int) = Int.tmod c.y 7)) :=
  ⟨by decide, by decide, by decide, by decide,
    C4_verify_share_compares_commitment 1 4 7 [⟨0, 2⟩, ⟨1, 4⟩]
      (by decide) (by decide) (by decide) (by decide)⟩

/-! ## Claim C5: a tampered share is rejected -/

/-- The dealer's coefficient list is never empty. -/
theorem coefficients_eq_cons (k : Nat) (secret p : Int) (draw : Nat → Int) :
    ∃ cs, (generate_random_polynomial k p draw).set 0 secret = secret :: cs := by
  unfold generate_random_polynomial
  rw [List.range_succ_eq_map]
  exact ⟨_, rfl⟩

/-- Position `j` of the dealer's output holds the share with index `j`. -/
theorem dealer_getElem? (cs : List Int) (p : Int) (n j : Nat) (hj : j < n) :
    ((List.range' 0 n).map (fun i : Nat => (⟨(i : Int), hornerValue cs (i : Int) p⟩ : Share)))[j]?
      = some ⟨(j : Int), hornerValue cs j p⟩ := by
  rw [List.getElem?_map, List.getElem?_range' 0 1 hj]
  simp

/-- C5: let `(x, y)` be a share returned by `distribute_commitments(k, secret, p)` with
`p > 0`, and let the commitment set be a prefix of the same output that contains
index `x`.  Then `verify_share` returns `false` for `(x, y')` whenever `y' ≠ y`, in
particular for `(x, y + 1)`. -/
theorem C5_tampered_share_rejected (k : Nat) (secret p : Int) (draw : Nat → Int)
    (shares : List Share) (m : Nat) (x y : Int)
    (hp : 0 < p) (hk : (k : Int) ≤ INT_MAX)
    (hd : distribute_commitments k secret p draw = some shares)
    (hmem : (⟨x, y⟩ : Share) ∈ shares)
    (hpre : ∃ c ∈ shares.take m, c.x = x) :
    (∀ y', y' ≠ y → verify_share ⟨x, y'⟩ p (shares.take m) = some false) ∧
    verify_share ⟨x, y + 1⟩ p (shares.take m) = some false := by
  rw [distribute_commitments_eq k secret hp draw] at hd
  obtain ⟨cs, hcs⟩ := coefficients_eq_cons k secret p draw
  rw [hcs] at hd
  have hsh := (Option.some.inj hd).symm
  have hlen : shares.length = k + 1 := by rw [hsh]; simp
  -- the share `(x, y)` sits at position `x`
  obtain ⟨j, hj, hjeq⟩ : ∃ j, j < k + 1 ∧
      (⟨x, y⟩ : Share) = ⟨(j : Int), hornerValue (secret :: cs) j p⟩ := by
    rw [hsh] at hmem
    obtain ⟨j, hjr, hjv⟩ := List.mem_map.mp hmem
    exact ⟨j, by simpa using hjr, hjv.symm⟩
  have hxj : x = (j : Int) := congrArg Share.x hjeq
  have hyj : y = hornerValue (secret :: cs) j p := congrArg Share.y hjeq
  -- the prefix reaches position `x`
  have hjm : j < m := by
    obtain ⟨c, hc, hcx⟩ := hpre
    obtain ⟨i, hi, hci⟩ := List.mem_take_iff_getElem.mp hc
    have hik : i < k + 1 := by omega
    have hget : shares[i]? = some ⟨(i : Int), hornerValue (secret :: cs) i p⟩ := by
      rw [hsh]
      exact dealer_getElem? _ p (k + 1) i hik
    have hci' : shares[i]? = some c := by
      rw [← hci]
      exact List.getElem?_eq_getElem _
    rw [hget] at hci'
    have hcxi : c.x = (i : Int) := by
      rw [← Option.some.inj hci']
    omega
  have hcomm : (shares.take m)[x.toNat]? = some ⟨x, y⟩ := by
    rw [List.getElem?_take, hxj, Int.toNat_ofNat, if_pos hjm, hsh,
      dealer_getElem? _ p (k + 1) j hj, hyj]
  have hlen' : (shares.take m).length ≤ SIZE_MAX := by
    rw [List.length_take, hlen]
    simp only [INT_MAX, SIZE_MAX] at *
    omega
  have hx1 : x < ((shares.take m).length : Int) := by
    rw [List.length_take, hlen]
    omega
  have key : ∀ y', y' ≠ y → verify_share ⟨x, y'⟩ p (shares.take m) = some false := by
    intro y' hy'
    rw [verify_share_in_range x y' hp (shares.take m) hlen' (by omega) hx1 _ hcomm]
    have hred : Int.tmod y p = y := by
      rw [hyj]
      exact hornerValue_tmod secret cs j p
    simp [hred, hy']
  exact ⟨key, key (y + 1) (by omega)⟩

/-- Instance of `C5_tampered_share_rejected` in the configuration of `main`: `k = 3`,
`p = 509`, secret `17`, commitment set the first three shares, share `(1, 26)`. -/
theorem C5_tampered_share_rejected_witness :
    (0 : Int) < 509 ∧ ((3 : Nat) : Int) ≤ INT_MAX ∧
    distribute_commitments 3 17 509 (fun i => (i : Int) + 1)
      = some [⟨0, 17⟩, ⟨1, 26⟩, ⟨2, 65⟩, ⟨3, 158⟩] ∧
    (⟨1, 26⟩ : Share) ∈ ([⟨0, 17⟩, ⟨1, 26⟩, ⟨2, 65⟩, ⟨3, 158⟩] : List Share) ∧
    (∃ c ∈ ([⟨0, 17⟩, ⟨1, 26⟩, ⟨2, 65⟩, ⟨3, 158⟩] : List Share).take 3, c.x = 1) ∧
    ((∀ y', y' ≠ 26 → verify_share ⟨1, y'⟩ 509
        (([⟨0, 17⟩, ⟨1, 26⟩, ⟨2, 65⟩, ⟨3, 158⟩] : List Share).take 3) = some false) ∧
     verify_share ⟨1, 26 + 1⟩ 509
        (([⟨0, 17⟩, ⟨1, 26⟩, ⟨2, 65⟩, ⟨3, 158⟩] : List Share).take 3) = some false) :=
  ⟨by decide, by decide, by decide, by decide, ⟨⟨1, 26⟩, by decide, rfl⟩,
    C5_tampered_share_rejected 3 17 509 (fun i => (i : Int) + 1)
      [⟨0, 17⟩, ⟨1, 26⟩, ⟨2, 65⟩, ⟨3, 158⟩] 3 1 26
      (by decide) (by decide) (by decide) (by decide) ⟨⟨1, 26⟩, by decide, rfl⟩⟩

/-! ## Claims C6 to C8: the range check of `verify_share` -/

/-- C6 as stated fails: the share `(0, 17)` is accepted against the commitment set
`(0, 17), (1, 22)` returned by the dealer for `p = 509`, so index `0` is not rejected. -/
theorem C6_index_zero_accepted :
    distribute_commitments 1 17 509 (fun _ => 5) = some [⟨0, 17⟩, ⟨1, 22⟩] ∧
    verify_share ⟨0, 17⟩ 509 [⟨0, 17⟩, ⟨1, 22⟩] = some true ∧
    ¬ (verify_share ⟨0, 17⟩ 509 [⟨0, 17⟩, ⟨1, 22⟩] = some false) := by
  refine ⟨by decide, by decide, by decide⟩

/-- C6 as amended: for a modulus `p > 0` and a non-empty commitment set, the share
`(0, y)` passes the range check and the verdict is the comparison of `y` with
`commitments[0].y % p`; it is `false` exactly when the two differ. -/
theorem C6_index_zero_compared (y p : Int) (c : Share) (rest : List Share) (hp : 0 < p) :
    verify_share ⟨0, y⟩ p (c :: rest) = some (decide (y = Int.tmod c.y p)) ∧
    (verify_share ⟨0, y⟩ p (c :: rest) = some false ↔ y ≠ Int.tmod c.y p) := by
  have hv : verify_share ⟨0, y⟩ p (c :: rest) = some (decide (y = Int.tmod c.y p)) := by
    unfold verify_share
    have hcheck : ¬ ((0 : Int) < 0 ∨
        toSizeT 0 > toSizeT ((((c :: rest).length : Nat) : Int) - 1)) := by
      rw [toSizeT_zero]
      omega
    rw [if_neg hcheck]
    simp only [toSizeT_zero, List.getElem?_cons_zero, evaluate_polynomial_singleton,
      rem_of_pos _ hp]
    by_cases hy : y = Int.tmod c.y p <;> simp [hy]
  refine ⟨hv, ?_⟩
  rw [hv]
  by_cases hy : y = Int.tmod c.y p <;> simp [hy]

/-- Instance of `C6_index_zero_compared` at `y = 18`, `p = 509` and the commitment set
`(0, 17), (1, 22)`. -/
theorem C6_index_zero_compared_witness :
    (0 : Int) < 509 ∧
    (verify_share ⟨0, 18⟩ 509 (⟨0, 17⟩ :: [⟨1, 22⟩])
        = some (decide ((18 : Int) = Int.tmod (⟨0, 17⟩ : Share).y 509)) ∧
     (verify_share ⟨0, 18⟩ 509 (⟨0, 17⟩ :: [⟨1, 22⟩]) = some false
        ↔ (18 : Int) ≠ Int.tmod (⟨0, 17⟩ : Share).y 509)) :=
  ⟨by decide, C6_index_zero_compared 18 509 ⟨0, 17⟩ [⟨1, 22⟩] (by decide)⟩

/-- C7: for a non-empty commitment set, every modulus `p` and every `y`, `verify_share`
returns `false` for a share `(x, y)` with `x < 0` or `x > commitments.size() - 1`
(`x` an `int`, the size a `size_t`). -/
theorem C7_out_of_range_rejected (x y p : Int) (commitments : List Share)
    (hne : commitments ≠ []) (hlen : commitments.length ≤ SIZE_MAX) (hx : x ≤ INT_MAX)
    (hout : x < 0 ∨ x > (commitments.length : Int) - 1) :
    verify_share ⟨x, y⟩ p commitments = some false :=
  verify_share_out_of_range ⟨x, y⟩ p commitments hne hlen hx hout

/-- Instance of `C7_out_of_range_rejected`: the fourth dealer share `(3, 158)` against
the three commitments of `main`. -/
theorem C7_out_of_range_rejected_witness :
    ([⟨0, 17⟩, ⟨1, 26⟩, ⟨2, 65⟩] : List Share) ≠ [] ∧
    ([⟨0, 17⟩, ⟨1, 26⟩, ⟨2, 65⟩] : List Share).length ≤ SIZE_MAX ∧
    (3 : Int) ≤ INT_MAX ∧
    ((3 : Int) < 0 ∨ (3 : Int) > (([⟨0, 17⟩, ⟨1, 26⟩, ⟨2, 65⟩] : List Share).length : Int) - 1) ∧
    verify_share ⟨3, 158⟩ 509 [⟨0, 17⟩, ⟨1, 26⟩, ⟨2, 65⟩] = some false :=
  ⟨by decide, by decide, by decide, by decide,
    C7_out_of_range_rejected 3 158 509 [⟨0, 17⟩, ⟨1, 26⟩, ⟨2, 65⟩]
      (by decide) (by decide) (by decide) (by decide)⟩

/-- For the empty commitment set, `commitments.size() - 1` is `SIZE_MAX`, no index
`x ≥ 0` of type `int` exceeds it, and the read `commitments[share.x]` is past the end. -/
theorem verify_share_nil (x y p : Int) (h0 : 0 ≤ x) (hx : x ≤ INT_MAX) :
    verify_share ⟨x, y⟩ p [] = none := by
  have hx' : x ≤ (SIZE_MAX : Int) := by
    simp only [INT_MAX, SIZE_MAX] at *
    omega
  have hcheck : ¬ (x < 0 ∨ toSizeT x > toSizeT (((([] : List Share).length : Nat) : Int) - 1)) := by
    have h1 : ((([] : List Share).length : Nat) : Int) - 1 = -1 := rfl
    rw [h1, toSizeT_neg_one, toSizeT_of_nonneg h0 hx']
    omega
  unfold verify_share
  rw [if_neg hcheck]
  rfl

/-- C8 (totality of `verify_share`), evaluated at the share `(0, 0)`, `p = 7` and the empty
commitment set: the range check compares `0` with `size() - 1 = SIZE_MAX`, lets the
share through, and the read `commitments[0]` is past the end of the vector; no verdict
`false` is returned. -/
theorem C8_empty_commitments_read_out_of_bounds :
    toSizeT (((([] : List Share).length : Nat) : Int) - 1) = SIZE_MAX ∧
    ([] : List Share)[toSizeT 0]? = none ∧
    verify_share ⟨0, 0⟩ 7 [] = none ∧
    verify_share ⟨0, 0⟩ 7 [] ≠ some false := by
  refine ⟨by decide, by decide, by decide, by decide⟩

/-! ## Claim C9: the indices issued by the dealer -/

/-- C9 as stated fails: for `k = 1`, `p = 509`, secret `17` the dealer returns `n = 2`
shares and the first one has index `0`, outside `[1, n]`. -/
theorem C9_index_zero_issued :
    distribute_commitments 1 17 509 (fun _ => 5) = some [⟨0, 17⟩, ⟨1, 22⟩] ∧
    ¬ (∀ s ∈ ([⟨0, 17⟩, ⟨1, 22⟩] : List Share),
        1 ≤ s.x ∧ s.x ≤ (([⟨0, 17⟩, ⟨1, 22⟩] : List Share).length : Int)) := by
  refine ⟨by decide, ?_⟩
  intro h
  have := (h ⟨0, 17⟩ (by decide)).1
  exact absurd this (by decide)

/-- C9 as amended: for every `k ≥ 0`, modulus `p > 0`, secret and draw of
coefficients, `distribute_commitments(k, secret, p)` returns `n = k + 1` shares whose
indices are `0, 1, …, k` in this order; every share has `x` in `[0, n - 1]`. -/
theorem C9_indices_zero_to_k (k : Nat) (secret p : Int) (draw : Nat → Int) (hp : 0 < p) :
    ∃ shares, distribute_commitments k secret p draw = some shares ∧
      shares.length = k + 1 ∧
      shares.map (fun s => s.x) = (List.range (k + 1)).map (fun i : Nat => (i : Int)) ∧
      ∀ s ∈ shares, 0 ≤ s.x ∧ s.x ≤ (shares.length : Int) - 1 := by
  refine ⟨_, distribute_commitments_eq k secret hp draw, by simp, ?_, ?_⟩
  · rw [List.map_map, List.range_eq_range']
    rfl
  · intro s hs
    obtain ⟨j, hjr, rfl⟩ := List.mem_map.mp hs
    have hj : j < k + 1 := by simpa using hjr
    simp only [List.length_map, List.length_range']
    omega

/-- Instance of `C9_indices_zero_to_k` in the configuration of `main`. -/
theorem C9_indices_zero_to_k_witness :
    (0 : Int) < 509 ∧
    ∃ shares, distribute_commitments 3 17 509 (fun i => (i : Int) + 1) = some shares ∧
      shares.length = 3 + 1 ∧
      shares.map (fun s => s.x) = (List.range (3 + 1)).map (fun i : Nat => (i : Int)) ∧
      ∀ s ∈ shares, 0 ≤ s.x ∧ s.x ≤ (shares.length : Int) - 1 :=
  ⟨by decide, C9_indices_zero_to_k 3 17 509 (fun i => (i : Int) + 1) (by decide)⟩

/-! ## Claim C10: the threshold test of `reconstruct_secret` -/

/-- When every call of `verify_share` is defined, the counting loop adds the number of
accepted shares to its counter. -/
theorem countValid_eq (p : Int) (commitments shares : List Share) (n : Int)
    (hdef : ∀ s ∈ shares, verify_share s p commitments ≠ none) :
    countValid p commitments shares n
      = some (n + ((shares.filter
          (fun s => decide (verify_share s p commitments = some true))).length : Int)) := by
  induction shares generalizing n with
  | nil => simp [countValid]
  | cons s rest ih =>
    have hrest : ∀ t ∈ rest, verify_share t p commitments ≠ none :=
      fun t ht => hdef t (List.mem_cons_of_mem _ ht)
    have hs := hdef s (List.mem_cons_self _ _)
    unfold countValid
    cases hv : verify_share s p commitments with
    | none => exact absurd hv hs
    | some b =>
      cases b with
      | true =>
        simp only [ih _ hrest, List.filter_cons, hv, decide_True, if_true, List.length_cons]
        congr 1
        push_cast
        ring
      | false =>
        simp [ih _ hrest, List.filter_cons, hv]

/-- C10 as stated fails: with `k = 3` the threshold would be `t = 4`; of the four dealer
shares for `p = 509`, secret `17`, the last one is omitted, so only three shares are
supplied (all accepted against the four commitments), and `reconstruct_secret` returns
`108` instead of the failure value `-1`. -/
theorem C10_three_of_four_not_refused :
    distribute_commitments 3 17 509 (fun i => (i : Int) + 1)
      = some [⟨0, 17⟩, ⟨1, 26⟩, ⟨2, 65⟩, ⟨3, 158⟩] ∧
    (([⟨0, 17⟩, ⟨1, 26⟩, ⟨2, 65⟩] : List Share).filter (fun s =>
        decide (verify_share s 509 [⟨0, 17⟩, ⟨1, 26⟩, ⟨2, 65⟩, ⟨3, 158⟩] = some true))).length
      < 3 + 1 ∧
    reconstruct_secret 3 [⟨0, 17⟩, ⟨1, 26⟩, ⟨2, 65⟩] 509
        [⟨0, 17⟩, ⟨1, 26⟩, ⟨2, 65⟩, ⟨3, 158⟩] = some 108 ∧
    reconstruct_secret 3 [⟨0, 17⟩, ⟨1, 26⟩, ⟨2, 65⟩] 509
        [⟨0, 17⟩, ⟨1, 26⟩, ⟨2, 65⟩, ⟨3, 158⟩] ≠ some (-1) := by
  refine ⟨by decide, by decide, by decide, by decide⟩

/-- C10 as amended: for every `k`, modulus, commitment set and share list on which every
call of `verify_share` is defined, `reconstruct_secret` returns the failure value `-1`
whenever fewer than 2 of the supplied shares pass `verify_share`; the bound is the
constant `2`, whatever `k` is. -/
theorem C10_fewer_than_two_refused (k : Nat) (shares : List Share) (p : Int)
    (commitments : List Share)
    (hdef : ∀ s ∈ shares, verify_share s p commitments ≠ none)
    (hfew : (shares.filter
        (fun s => decide (verify_share s p commitments = some true))).length < 2) :
    reconstruct_secret k shares p commitments = some (-1) := by
  unfold reconstruct_secret
  rw [countValid_eq p commitments shares 0 hdef]
  simp only
  rw [if_pos]
  omega

/-- Instance of `C10_fewer_than_two_refused`: `k = 1`, the dealer's two shares for
`p = 509` and secret `17` with the second one omitted. -/
theorem C10_fewer_than_two_refused_witness :
    (∀ s ∈ ([⟨0, 17⟩] : List Share), verify_share s 509 [⟨0, 17⟩, ⟨1, 22⟩] ≠ none) ∧
    (([⟨0, 17⟩] : List Share).filter
        (fun s => decide (verify_share s 509 [⟨0, 17⟩, ⟨1, 22⟩] = some true))).length < 2 ∧
    reconstruct_secret 1 [⟨0, 17⟩] 509 [⟨0, 17⟩, ⟨1, 22⟩] = some (-1) :=
  ⟨by decide, by decide,
    C10_fewer_than_two_refused 1 [⟨0, 17⟩] 509 [⟨0, 17⟩, ⟨1, 22⟩] (by decide) (by decide)⟩

/-! ## The loop invariant of `invmod` -/

/-- One step of Euclid's algorithm keeps the greatest common divisor. -/
theorem gcd_euclid_step (r1 r2 q : Int) : Int.gcd r2 (r1 - q * r2) = Int.gcd r1 r2 := by
  apply Nat.dvd_antisymm
  · apply Int.natCast_dvd_natCast.mp
    apply Int.dvd_gcd
    · have h1 : ((Int.gcd r2 (r1 - q * r2) : Nat) : Int) ∣ r2 := Int.gcd_dvd_left
      have h2 : ((Int.gcd r2 (r1 - q * r2) : Nat) : Int) ∣ r1 - q * r2 := Int.gcd_dvd_right
      have h3 := Int.dvd_add h2 (Dvd.dvd.mul_left h1 q)
      have h4 : r1 - q * r2 + q * r2 = r1 := by ring
      rw [h4] at h3
      exact h3
    · exact Int.gcd_dvd_left
  · apply Int.natCast_dvd_natCast.mp
    apply Int.dvd_gcd
    · exact Int.gcd_dvd_right
    · have h1 : ((Int.gcd r1 r2 : Nat) : Int) ∣ r1 := Int.gcd_dvd_left
      have h2 : ((Int.gcd r1 r2 : Nat) : Int) ∣ r2 := Int.gcd_dvd_right
      exact Int.dvd_sub h1 (Dvd.dvd.mul_left h2 q)

/-- Invariant of the loop of `invmod(a, p)`.  In a state `(r1, r2, t1, t2)` with
`t1 = -s * u1`, `t2 = s * u2` (`s = ±1`, `u1, u2 ≥ 0`), `u1 * r2 + u2 * r1 = p`,
`u1 < p`, `t1 * a ≡ r1` and `t2 * a ≡ r2` modulo `p`, the loop ends with
`r1 = gcd` of the current remainders and a `t1` of absolute value below `p` with
`t1 * a ≡ r1`. -/
theorem invmodLoop_invariant (a p : Int) (hp : 2 ≤ p) (fuel : Nat) :
    ∀ (r1 r2 t1 t2 s u1 u2 : Int),
      (s = 1 ∨ s = -1) → 0 ≤ r2 → 0 < r1 → (0 < r2 → 2 ≤ r1) →
      0 ≤ u1 → 0 ≤ u2 → u1 * r2 + u2 * r1 = p → u1 < p →
      t1 = -s * u1 → t2 = s * u2 →
      p ∣ t1 * a - r1 → p ∣ t2 * a - r2 →
      r2.toNat < fuel →
      (invmodLoop fuel r1 r2 t1 t2).1 = (Int.gcd r1 r2 : Int) ∧
      -p < (invmodLoop fuel r1 r2 t1 t2).2 ∧ (invmodLoop fuel r1 r2 t1 t2).2 < p ∧
      p ∣ (invmodLoop fuel r1 r2 t1 t2).2 * a - (invmodLoop fuel r1 r2 t1 t2).1 := by
  induction fuel with
  | zero =>
    intro r1 r2 t1 t2 s u1 u2 _ _ _ _ _ _ _ _ _ _ _ _ hf
    omega
  | succ n ih =>
    intro r1 r2 t1 t2 s u1 u2 hs hr2 hr1 hr12 hu1 hu2 hdet hu1p ht1 ht2 hc1 hc2 hf
    by_cases hpos : r2 > 0
    · -- the loop body runs
      have hq : Int.tdiv r1 r2 = r1 / r2 := Int.tdiv_eq_ediv (le_of_lt hr1) hr2
      have hq0 : 0 ≤ r1 / r2 := Int.ediv_nonneg (le_of_lt hr1) hr2
      have hrem : r1 - r1 / r2 * r2 = r1 % r2 := by
        have := Int.emod_add_ediv r1 r2
        linarith [Int.mul_comm r2 (r1 / r2)]
      have hrem0 : 0 ≤ r1 % r2 := Int.emod_nonneg _ (by omega)
      have hremlt : r1 % r2 < r2 := Int.emod_lt_of_pos _ hpos
      have h2 : 2 ≤ r1 := hr12 hpos
      have hu2p : u2 < p := by nlinarith
      have hstep : invmodLoop (n + 1) r1 r2 t1 t2
          = invmodLoop n r2 (r1 - r1 / r2 * r2) t2 (t1 - r1 / r2 * t2) := by
        simp only [invmodLoop, hpos, if_true, hq]
      rw [hstep]
      have key := ih r2 (r1 - r1 / r2 * r2) t2 (t1 - r1 / r2 * t2) (-s) u2 (u1 + r1 / r2 * u2)
        (by omega) (by omega) hpos (by intro _; omega) hu2 (by positivity)
        (by rw [← hdet]; ring) hu2p (by rw [ht2]; ring) (by rw [ht1, ht2]; ring)
        hc2
        (by
          have : (t1 - r1 / r2 * t2) * a - (r1 - r1 / r2 * r2)
              = (t1 * a - r1) - r1 / r2 * (t2 * a - r2) := by ring
          rw [this]
          exact Int.dvd_sub hc1 (Dvd.dvd.mul_left hc2 _))
        (by omega)
      rw [gcd_euclid_step] at key
      exact key
    · -- the loop has ended
      have hr20 : r2 = 0 := by omega
      have hstop : invmodLoop (n + 1) r1 r2 t1 t2 = (r1, t1) := by
        simp only [invmodLoop, hpos, if_false]
      rw [hstop]
      have hu : t1 = u1 ∨ t1 = -u1 := by
        rcases hs with h | h <;> subst h <;> simp [ht1]
      refine ⟨?_, ?_, ?_, hc1⟩
      · subst hr20
        rw [Int.gcd_zero_right]
        omega
      · rcases hu with h | h <;> omega
      · rcases hu with h | h <;> omega

/-- Result of the loop of `invmod(a, p)` for `p ≥ 2` and `a ≥ 0`: the final `r1` is
`gcd(a, p)`, the final `t1` lies strictly between `-p` and `p`, and `t1 * a ≡ r1`
modulo `p`. -/
theorem invmodLoop_result (a p : Int) (hp : 2 ≤ p) (ha : 0 ≤ a) :
    (invmodLoop (a.toNat + 1) p a 0 1).1 = (Int.gcd a p : Int) ∧
    -p < (invmodLoop (a.toNat + 1) p a 0 1).2 ∧ (invmodLoop (a.toNat + 1) p a 0 1).2 < p ∧
    p ∣ (invmodLoop (a.toNat + 1) p a 0 1).2 * a - (invmodLoop (a.toNat + 1) p a 0 1).1 := by
  have key := invmodLoop_invariant a p hp (a.toNat + 1) p a 0 1 1 0 1
    (Or.inl rfl) ha (by omega) (by intro _; exact hp) (le_refl 0) (by omega) (by ring)
    (by omega) (by ring) (by ring) (by simp) (by simp) (by omega)
  rw [Int.gcd_comm] at key
  exact key

/-- When `gcd(a, p) ≠ 1`, `invmod` returns `-1`. -/
theorem invmod_of_not_coprime (a p : Int) (hp : 2 ≤ p) (ha : 0 ≤ a)
    (hg : Int.gcd a p ≠ 1) : invmod a p = -1 := by
  obtain ⟨h1, -, -, -⟩ := invmodLoop_result a p hp ha
  have hpos : 0 < Int.gcd a p := Int.gcd_pos_of_ne_zero_right a (by omega)
  unfold invmod
  simp only
  rw [if_pos]
  rw [h1]
  omega

/-- When `gcd(a, p) = 1`, `invmod` returns the inverse of `a` in `[1, p - 1]`. -/
theorem invmod_of_coprime (a p : Int) (hp : 2 ≤ p) (ha : 0 ≤ a) (hg : Int.gcd a p = 1) :
    1 ≤ invmod a p ∧ invmod a p ≤ p - 1 ∧ (a * invmod a p) % p = 1 := by
  obtain ⟨h1, hlo, hhi, hdvd⟩ := invmodLoop_result a p hp ha
  rw [hg] at h1
  rw [h1] at hdvd
  have hnot : ¬ (invmodLoop (a.toNat + 1) p a 0 1).1 > 1 := by
    rw [h1]
    decide
  -- the returned value `r` is congruent to `t1` and lies in `[0, p - 1]`
  obtain ⟨r, hr, hr0, hrp, hrd⟩ : ∃ r, invmod a p = r ∧ 0 ≤ r ∧ r < p ∧ p ∣ r * a - 1 := by
    unfold invmod
    simp only
    rw [if_neg hnot]
    by_cases hneg : (invmodLoop (a.toNat + 1) p a 0 1).2 < 0
    · rw [if_pos hneg]
      refine ⟨_, rfl, by omega, by omega, ?_⟩
      have : ((invmodLoop (a.toNat + 1) p a 0 1).2 + p) * a - ((1 : Nat) : Int)
          = ((invmodLoop (a.toNat + 1) p a 0 1).2 * a - ((1 : Nat) : Int)) + p * a := by ring
      have h2 := Int.dvd_add hdvd (Dvd.intro a rfl : p ∣ p * a)
      rw [← this] at h2
      simpa using h2
    · rw [if_neg hneg]
      exact ⟨_, rfl, by omega, by omega, by simpa using hdvd⟩
  rw [hr]
  have hne : r ≠ 0 := by
    rintro rfl
    have h2 : p ∣ (1 : Int) := by
      have h3 : p ∣ -(0 * a - 1) := (Int.dvd_neg).mpr hrd
      simpa using h3
    have := Int.le_of_dvd (by decide) h2
    omega
  refine ⟨by omega, by omega, ?_⟩
  obtain ⟨c, hc⟩ := hrd
  have h4 : a * r = 1 + p * c := by linarith
  rw [h4, Int.add_mul_emod_self_left]
  exact Int.emod_eq_of_lt (by decide) (by omega)

/-- For a prime `p` and `0 ≤ a < p`, `gcd(a, p) = 1` exactly when `a ≠ 0`. -/
theorem gcd_prime_eq_one_iff (a p : Int) (hp : Nat.Prime p.toNat) (ha : 0 ≤ a) (hap : a < p) :
    Int.gcd a p = 1 ↔ a ≠ 0 := by
  lift a to Nat using ha
  lift p to Nat using (by omega)
  rw [Int.gcd_natCast_natCast]
  simp only [Int.toNat_ofNat] at hp
  have hap' : a < p := by exact_mod_cast hap
  constructor
  · intro h h0
    have h0' : a = 0 := by exact_mod_cast h0
    subst h0'
    rw [Nat.gcd_zero_left] at h
    exact hp.one_lt.ne' h
  · intro h
    have hpos : 0 < a := Nat.pos_of_ne_zero (by exact_mod_cast h)
    have hnd : ¬ p ∣ a := Nat.not_dvd_of_pos_of_lt hpos hap'
    exact Nat.Coprime.symm ((Nat.Prime.coprime_iff_not_dvd hp).mpr hnd)

/-! ## Claims C11 and C12: `invmod` -/

/-- C11: for every modulus `p ≥ 2` and every `a > 0` with `gcd(a, p) = 1`, in particular
for every `0 < a < p` when `p` is prime, `invmod(a, p)` returns `r` with
`1 ≤ r ≤ p - 1` and `(a * r) mod p = 1`. -/
theorem C11_invmod_inverse (a p : Int) (hp : 2 ≤ p) (ha : 0 < a)
    (hg : Int.gcd a p = 1 ∨ (Nat.Prime p.toNat ∧ a < p)) :
    1 ≤ invmod a p ∧ invmod a p ≤ p - 1 ∧ (a * invmod a p) % p = 1 := by
  have hcop : Int.gcd a p = 1 := by
    rcases hg with h | ⟨hprime, hap⟩
    · exact h
    · exact (gcd_prime_eq_one_iff a p hprime (le_of_lt ha) hap).mpr (by omega)
  exact invmod_of_coprime a p hp (le_of_lt ha) hcop

/-- Instance of `C11_invmod_inverse`: `invmod(5, 509)` with `509` prime. -/
theorem C11_invmod_inverse_witness :
    (2 : Int) ≤ 509 ∧ (0 : Int) < 5 ∧
    (Int.gcd 5 509 = 1 ∨ (Nat.Prime (509 : Int).toNat ∧ (5 : Int) < 509)) ∧
    (1 ≤ invmod 5 509 ∧ invmod 5 509 ≤ 509 - 1 ∧ (5 * invmod 5 509) % 509 = 1) :=
  ⟨by decide, by decide, Or.inl (by decide),
    C11_invmod_inverse 5 509 (by decide) (by decide) (Or.inl (by decide))⟩

/-- C12: for every modulus `p ≥ 2` and every `a ≥ 0`, `invmod(a, p)` returns `-1` if and
only if `gcd(a, p) ≠ 1`; for a prime `p` and `0 ≤ a < p` this happens only for `a = 0`. -/
theorem C12_invmod_no_inverse (a p : Int) (hp : 2 ≤ p) (ha : 0 ≤ a) :
    (invmod a p = -1 ↔ Int.gcd a p ≠ 1) ∧
    (Nat.Prime p.toNat → a < p → (invmod a p = -1 ↔ a = 0)) := by
  have hiff : invmod a p = -1 ↔ Int.gcd a p ≠ 1 := by
    constructor
    · intro h hg
      have := (invmod_of_coprime a p hp ha hg).1
      omega
    · exact invmod_of_not_coprime a p hp ha
  refine ⟨hiff, fun hprime hap => ?_⟩
  rw [hiff, Ne, gcd_prime_eq_one_iff a p hprime ha hap]
  exact not_not

/-- Instance of `C12_invmod_no_inverse`: `p = 509`, `a = 0`. -/
theorem C12_invmod_no_inverse_witness :
    (2 : Int) ≤ 509 ∧ (0 : Int) ≤ 0 ∧
    ((invmod 0 509 = -1 ↔ Int.gcd 0 509 ≠ 1) ∧
     (Nat.Prime (509 : Int).toNat → (0 : Int) < 509 → (invmod 0 509 = -1 ↔ (0 : Int) = 0))) :=
  ⟨by decide, by decide, C12_invmod_no_inverse 0 509 (by decide) (by decide)⟩


/-! ## Claim C13: the modulus returned by `generate_p` -/

/-- A value returned by `generate_p(q)` has remainder `1` modulo `q`, so `q` divides
`p - 1`. -/
theorem generate_p_rem (q : Int) (draws : List Int) (p : Int)
    (h : generate_p q draws = some p) : Int.tmod p q = 1 ∧ q ∣ p - 1 := by
  induction draws with
  | nil => simp [generate_p] at h
  | cons d rest ih =>
    unfold generate_p at h
    cases hrem : rem d q with
    | none => simp [hrem] at h
    | some r =>
      have hr' : r = Int.tmod d q := rem_eq_some hrem
      subst hr'
      rw [hrem] at h
      by_cases hr : Int.tmod d q = 1
      · simp only [hr, ne_eq, not_true_eq_false, if_false] at h
        have hdp : d = p := Option.some.inj h
        subst hdp
        refine ⟨hr, ?_⟩
        have h1 := Int.tmod_add_tdiv d q
        exact ⟨Int.tdiv d q, by omega⟩
      · simp only [ne_eq, hr, not_false_eq_true, if_true] at h
        exact ih h

/-- C13 (the returned modulus is prime), evaluated at `q = 127` and the draws `200, 255`,
both in `[q + 1, INT_MAX]`: the draw `200` is rejected, the draw `255 = 2 * 127 + 1` ends
the loop and is returned, and `255 = 3 * 5 * 17` is not prime. -/
theorem C13_composite_modulus_returned :
    ((127 : Int) + 1 ≤ 200 ∧ (200 : Int) ≤ INT_MAX) ∧
    ((127 : Int) + 1 ≤ 255 ∧ (255 : Int) ≤ INT_MAX) ∧
    generate_p 127 [200, 255] = some 255 ∧
    ((255 : Int) - 1) % 127 = 0 ∧
    ¬ Nat.Prime (255 : Int).toNat := by
  refine ⟨by decide, by decide, by decide, by decide, ?_⟩
  have h : (255 : Int).toNat = 255 := rfl
  rw [h]
  norm_num

/-! ## Claim C14: Horner evaluation -/

theorem polynomialSum_nil (x : Int) : polynomialSum [] x = 0 := rfl

theorem polynomialSum_cons (c : Int) (cs : List Int) (x : Int) :
    polynomialSum (c :: cs) x = c + x * polynomialSum cs x := by
  unfold polynomialSum
  rw [List.length_cons, List.range_succ_eq_map, List.map_cons, List.sum_cons, List.map_map,
    ← List.sum_map_mul_left]
  have h0 : (c :: cs).getD 0 0 * x ^ 0 = c := by simp
  rw [h0]
  congr 2
  apply List.map_congr_left
  intro i _
  simp only [Function.comp_apply, Nat.succ_eq_add_one, List.getD_cons_succ]
  ring

/-- For non-negative coefficients and a non-negative point, the value of the Horner loop
is the polynomial value reduced modulo `p`. -/
theorem hornerValue_eq_sum (cs : List Int) (x p : Int) (hp : 0 < p)
    (hcs : ∀ c ∈ cs, 0 ≤ c) (hx : 0 ≤ x) :
    hornerValue cs x p = polynomialSum cs x % p := by
  induction cs with
  | nil => simp [hornerValue, polynomialSum_nil]
  | cons c cs ih =>
    have hc : 0 ≤ c := hcs c (List.mem_cons_self _ _)
    have ih' := ih (fun d hd => hcs d (List.mem_cons_of_mem _ hd))
    have hnn : 0 ≤ hornerValue cs x p := by
      rw [ih']
      exact Int.emod_nonneg _ (by omega)
    have harg : 0 ≤ hornerValue cs x p * x + c := by positivity
    rw [hornerValue, Int.tmod_eq_emod harg (le_of_lt hp), ih', polynomialSum_cons,
      Int.add_emod, Int.mul_emod, Int.emod_emod, ← Int.mul_emod, ← Int.add_emod]
    congr 1
    ring

/-- C14: for every modulus `p > 0`, every list of non-negative coefficients `c_0 … c_m`
(in particular every non-empty one) and every `x ≥ 0`, `evaluate_polynomial(c, x, p)`
returns `(Σ_i c_i * x ^ i) mod p`, a value in `[0, p - 1]`. -/
theorem C14_horner_is_polynomial_value (cs : List Int) (x p : Int) (hp : 0 < p)
    (hcs : ∀ c ∈ cs, 0 ≤ c) (hx : 0 ≤ x) :
    evaluate_polynomial cs x p = some (polynomialSum cs x % p) ∧
    0 ≤ polynomialSum cs x % p ∧ polynomialSum cs x % p ≤ p - 1 := by
  have hp0 : p ≠ 0 := by omega
  refine ⟨?_, Int.emod_nonneg _ hp0, ?_⟩
  · rw [evaluate_polynomial_eq cs x hp, hornerValue_eq_sum cs x p hp hcs hx]
  · have := Int.emod_lt_of_pos (polynomialSum cs x) hp
    omega

/-- Instance of `C14_horner_is_polynomial_value`: the dealer polynomial
`17 + 2 x + 3 x² + 4 x³` at `x = 3` modulo `509`. -/
theorem C14_horner_is_polynomial_value_witness :
    (0 : Int) < 509 ∧ (∀ c ∈ ([17, 2, 3, 4] : List Int), 0 ≤ c) ∧ (0 : Int) ≤ 3 ∧
    (evaluate_polynomial [17, 2, 3, 4] 3 509 = some (polynomialSum [17, 2, 3, 4] 3 % 509) ∧
     0 ≤ polynomialSum [17, 2, 3, 4] 3 % 509 ∧ polynomialSum [17, 2, 3, 4] 3 % 509 ≤ 509 - 1) :=
  ⟨by decide, by decide, by decide,
    C14_horner_is_polynomial_value [17, 2, 3, 4] 3 509 (by decide) (by decide) (by decide)⟩


/-! ## Claims C15 to C17: the interpolation loop -/

/-- C15 (normalised operands), evaluated at the prime `p = 509` and the dealer shares
`(0, 17), (1, 22)` (distinct indices in `[0, p - 1]`, both accepted): for the first
share the inner loop ends with numerator `1` and denominator `-1`, for the second with
numerator `-1` and denominator `1`.  The denominator `-1` handed to `invmod` is not in
`[1, p - 1]`, the numerator `-1` is not in `[0, p - 1]`, and `invmod(-1, 509)` answers
`-1`. -/
theorem C15_operands_not_normalised :
    Nat.Prime 509 ∧
    verify_share ⟨0, 17⟩ 509 [⟨0, 17⟩, ⟨1, 22⟩] = some true ∧
    verify_share ⟨1, 22⟩ 509 [⟨0, 17⟩, ⟨1, 22⟩] = some true ∧
    lagrangeLoop 0 0 509 0 [⟨0, 17⟩, ⟨1, 22⟩] (1, 1) = some (1, -1) ∧
    lagrangeLoop 1 1 509 0 [⟨0, 17⟩, ⟨1, 22⟩] (1, 1) = some (-1, 1) ∧
    ¬ ((1 : Int) ≤ -1 ∧ (-1 : Int) ≤ 509 - 1) ∧
    ¬ ((0 : Int) ≤ -1 ∧ (-1 : Int) ≤ 509 - 1) ∧
    invmod (-1) 509 = -1 := by
  refine ⟨by norm_num, by decide, by decide, by decide, by decide, by decide, by decide,
    by decide⟩

/-- C16 (an inverse failure is fatal), evaluated at `p = 509` and the commitment set
`(0, 17), (1, 22)`.  For the two accepted shares `(1, 22), (1, 22)` with the same index
the denominator is `0`, `invmod(0, 509)` answers `-1`, and `reconstruct_secret` returns
`0`.  For the accepted shares `(0, 17), (1, 22)` the call `invmod(-1, 509)` answers `-1`
and `reconstruct_secret` returns `-39`, computed with that `-1` as a factor.  Neither
call returns the failure value `-1`. -/
theorem C16_inverse_failure_ignored :
    verify_share ⟨1, 22⟩ 509 [⟨0, 17⟩, ⟨1, 22⟩] = some true ∧
    lagrangeLoop 0 1 509 0 [⟨1, 22⟩, ⟨1, 22⟩] (1, 1) = some (0, 0) ∧
    invmod 0 509 = -1 ∧
    reconstruct_secret 1 [⟨1, 22⟩, ⟨1, 22⟩] 509 [⟨0, 17⟩, ⟨1, 22⟩] = some 0 ∧
    lagrangeLoop 0 0 509 0 [⟨0, 17⟩, ⟨1, 22⟩] (1, 1) = some (1, -1) ∧
    invmod (-1) 509 = -1 ∧
    reconstruct_secret 1 [⟨0, 17⟩, ⟨1, 22⟩] 509 [⟨0, 17⟩, ⟨1, 22⟩] = some (-39) := by
  refine ⟨by decide, by decide, by decide, by decide, by decide, by decide, by decide⟩

/-- C17 (rejected shares are discarded), evaluated at `p = 509`, the commitment set
`(0, 17), (1, 22)` and the share list `(0, 17), (1, 22), (5, 0)`: the share `(5, 0)` is
rejected, the accepted sub-list is `(0, 17), (1, 22)`, and `reconstruct_secret` returns
`105` on the full list but `-39` on the accepted sub-list. -/
theorem C17_rejected_share_changes_result :
    verify_share ⟨5, 0⟩ 509 [⟨0, 17⟩, ⟨1, 22⟩] = some false ∧
    ([⟨0, 17⟩, ⟨1, 22⟩, ⟨5, 0⟩] : List Share).filter
        (fun s => decide (verify_share s 509 [⟨0, 17⟩, ⟨1, 22⟩] = some true))
      = [⟨0, 17⟩, ⟨1, 22⟩] ∧
    reconstruct_secret 1 [⟨0, 17⟩, ⟨1, 22⟩, ⟨5, 0⟩] 509 [⟨0, 17⟩, ⟨1, 22⟩] = some 105 ∧
    reconstruct_secret 1 [⟨0, 17⟩, ⟨1, 22⟩] 509 [⟨0, 17⟩, ⟨1, 22⟩] = some (-39) ∧
    (105 : Int) % 509 ≠ (-39 : Int) % 509 := by
  refine ⟨by decide, by decide, by decide, by decide, by decide⟩

/-! ## Claims C18 and C19: the dealer's shares as commitments -/

/-- C18: for every `k ≥ 0`, modulus `p > 0`, secret `s` in `[0, p - 1]` and draw of the
coefficients, the first share returned by `distribute_commitments(k, s, p)` is `(0, s)`;
hence every commitment set made of the leading `m ≥ 1` shares has
`commitments[0].y = s`. -/
theorem C18_first_share_is_secret (k : Nat) (secret p : Int) (draw : Nat → Int)
    (hp : 0 < p) (h0 : 0 ≤ secret) (h1 : secret ≤ p - 1) :
    ∃ rest, distribute_commitments k secret p draw = some (⟨0, secret⟩ :: rest) ∧
      ∀ m, 1 ≤ m →
        (((⟨0, secret⟩ :: rest : List Share).take m)[0]?).map (fun c => c.y) = some secret := by
  obtain ⟨cs, hcs⟩ := coefficients_eq_cons k secret p draw
  have hv : hornerValue (secret :: cs) 0 p = secret := by
    simp only [hornerValue, mul_zero, zero_add]
    exact Int.tmod_eq_of_lt h0 (by omega)
  refine ⟨(List.range' 1 k).map (fun j : Nat =>
      (⟨(j : Int), hornerValue (secret :: cs) (j : Int) p⟩ : Share)), ?_, ?_⟩
  · rw [distribute_commitments_eq k secret hp draw, hcs, List.range'_succ, List.map_cons]
    simp only [Nat.cast_zero, hv, Nat.zero_add]
  · intro m hm
    obtain ⟨m', rfl⟩ : ∃ m', m = m' + 1 := ⟨m - 1, by omega⟩
    simp

/-- Instance of `C18_first_share_is_secret` in the configuration of `main`. -/
theorem C18_first_share_is_secret_witness :
    (0 : Int) < 509 ∧ (0 : Int) ≤ 17 ∧ (17 : Int) ≤ 509 - 1 ∧
    ∃ rest, distribute_commitments 3 17 509 (fun i => (i : Int) + 1)
        = some (⟨0, 17⟩ :: rest) ∧
      ∀ m, 1 ≤ m →
        (((⟨0, 17⟩ :: rest : List Share).take m)[0]?).map (fun c => c.y) = some 17 :=
  ⟨by decide, by decide, by decide,
    C18_first_share_is_secret 3 17 509 (fun i => (i : Int) + 1) (by decide) (by decide)
      (by decide)⟩

/-- The dealer's output for a positive modulus, with the coefficient list made explicit. -/
theorem dealer_shares_form (k : Nat) (secret p : Int) (draw : Nat → Int)
    (shares : List Share) (hp : 0 < p)
    (hd : distribute_commitments k secret p draw = some shares) :
    ∃ cs, shares = (List.range' 0 (k + 1)).map (fun j : Nat =>
      (⟨(j : Int), hornerValue (secret :: cs) (j : Int) p⟩ : Share)) := by
  rw [distribute_commitments_eq k secret hp draw] at hd
  obtain ⟨cs, hcs⟩ := coefficients_eq_cons k secret p draw
  rw [hcs] at hd
  exact ⟨cs, (Option.some.inj hd).symm⟩

/-- C19: for every `k ≥ 0`, modulus `p > 0`, secret, draw of coefficients and `m` with
`1 ≤ m ≤ k + 1`, when the commitment set is the first `m` shares returned by
`distribute_commitments(k, secret, p)`, `verify_share` accepts the dealer's share with
index `x` if and only if `x < m`; with `k = 3` and `m = 3` the fourth share is
rejected. -/
theorem C19_honest_share_accepted_iff (k : Nat) (secret p : Int) (draw : Nat → Int)
    (shares : List Share) (m : Nat) (x y : Int)
    (hp : 0 < p) (hk : (k : Int) ≤ INT_MAX)
    (hd : distribute_commitments k secret p draw = some shares)
    (hm1 : 1 ≤ m) (hm2 : m ≤ k + 1)
    (hmem : (⟨x, y⟩ : Share) ∈ shares) :
    verify_share ⟨x, y⟩ p (shares.take m) = some (decide (x < (m : Int))) ∧
    (verify_share ⟨x, y⟩ p (shares.take m) = some true ↔ x < (m : Int)) := by
  obtain ⟨cs, hsh⟩ := dealer_shares_form k secret p draw shares hp hd
  have hlen : shares.length = k + 1 := by rw [hsh]; simp
  obtain ⟨j, hj, hjeq⟩ : ∃ j, j < k + 1 ∧
      (⟨x, y⟩ : Share) = ⟨(j : Int), hornerValue (secret :: cs) j p⟩ := by
    rw [hsh] at hmem
    obtain ⟨j, hjr, hjv⟩ := List.mem_map.mp hmem
    exact ⟨j, by simpa using hjr, hjv.symm⟩
  have hxj : x = (j : Int) := congrArg Share.x hjeq
  have hyj : y = hornerValue (secret :: cs) j p := congrArg Share.y hjeq
  have hlen' : (shares.take m).length ≤ SIZE_MAX := by
    rw [List.length_take, hlen]
    simp only [INT_MAX, SIZE_MAX] at *
    omega
  have hmain : verify_share ⟨x, y⟩ p (shares.take m) = some (decide (x < (m : Int))) := by
    by_cases hjm : j < m
    · -- the share is among the commitments, at its own position
      have hcomm : (shares.take m)[x.toNat]? = some ⟨x, y⟩ := by
        rw [List.getElem?_take, hxj, Int.toNat_ofNat, if_pos hjm, hsh,
          dealer_getElem? _ p (k + 1) j hj, hyj]
      have hx1 : x < ((shares.take m).length : Int) := by
        rw [List.length_take, hlen]
        omega
      rw [verify_share_in_range x y hp (shares.take m) hlen' (by omega) hx1 _ hcomm]
      have hred : Int.tmod y p = y := by
        rw [hyj]
        exact hornerValue_tmod secret cs j p
      have hxm : x < (m : Int) := by omega
      simp [hred, hxm]
    · -- the index is past the last commitment
      have hne : shares.take m ≠ [] := by
        apply List.ne_nil_of_length_pos
        rw [List.length_take, hlen]
        omega
      have hout : x < 0 ∨ x > ((shares.take m).length : Int) - 1 := by
        right
        rw [List.length_take, hlen]
        omega
      have hx : x ≤ INT_MAX := by omega
      rw [verify_share_out_of_range ⟨x, y⟩ p (shares.take m) hne hlen' hx hout]
      have hxm : ¬ x < (m : Int) := by omega
      simp [hxm]
  refine ⟨hmain, ?_⟩
  rw [hmain]
  simp

/-- Instance of `C19_honest_share_accepted_iff` in the configuration of `main`
(`k = 3`, `m = 3`): the untampered fourth share `(3, 158)`. -/
theorem C19_honest_share_accepted_iff_witness :
    (0 : Int) < 509 ∧ ((3 : Nat) : Int) ≤ INT_MAX ∧
    distribute_commitments 3 17 509 (fun i => (i : Int) + 1)
      = some [⟨0, 17⟩, ⟨1, 26⟩, ⟨2, 65⟩, ⟨3, 158⟩] ∧
    1 ≤ 3 ∧ 3 ≤ 3 + 1 ∧
    (⟨3, 158⟩ : Share) ∈ ([⟨0, 17⟩, ⟨1, 26⟩, ⟨2, 65⟩, ⟨3, 158⟩] : List Share) ∧
    (verify_share ⟨3, 158⟩ 509 (([⟨0, 17⟩, ⟨1, 26⟩, ⟨2, 65⟩, ⟨3, 158⟩] : List Share).take 3)
        = some (decide ((3 : Int) < ((3 : Nat) : Int))) ∧
     (verify_share ⟨3, 158⟩ 509 (([⟨0, 17⟩, ⟨1, 26⟩, ⟨2, 65⟩, ⟨3, 158⟩] : List Share).take 3)
        = some true ↔ (3 : Int) < ((3 : Nat) : Int))) :=
  ⟨by decide, by decide, by decide, by decide, by decide, by decide,
    C19_honest_share_accepted_iff 3 17 509 (fun i => (i : Int) + 1)
      [⟨0, 17⟩, ⟨1, 26⟩, ⟨2, 65⟩, ⟨3, 158⟩] 3 3 158
      (by decide) (by decide) (by decide) (by decide) (by decide) (by decide)⟩

/-! ## Claim C20: 32-bit overflow in `evaluate_polynomial` -/

/-- C20: there are a modulus `p` with `128 ≤ p ≤ 2^31 - 1` and `p mod 127 = 1`,
coefficients in `[0, p - 1]` and a share index `x` in `[1, 3]` for which the value of
`result * x + coefficients[i]` exceeds `2^31 - 1` (at `i = 0`) and the result computed with
wrap-around modulo `2^32` differs from the exact `(Σ_i c_i * x ^ i) mod p`: namely
`p = 2147483641`, coefficients `17, p - 1, 0, 0` and `x = 3`, with results `0` and `14`. -/
theorem C20_overflow_changes_share_value :
    ∃ (p : Int) (cs : List Int) (x : Int),
      128 ≤ p ∧ p ≤ INT_MAX ∧ p % 127 = 1 ∧
      (∀ c ∈ cs, 0 ≤ c ∧ c ≤ p - 1) ∧ 1 ≤ x ∧ x ≤ 3 ∧
      (∃ result : Int, evaluate_polynomial cs.tail x p = some result ∧
        result * x + cs.headD 0 > INT_MAX) ∧
      ∃ v32 v : Int,
        evaluate_polynomial32 cs x p = some (v32, true) ∧
        evaluate_polynomial cs x p = some v ∧
        v = polynomialSum cs x % p ∧ v32 ≠ v := by
  refine ⟨2147483641, [17, 2147483640, 0, 0], 3, by decide, by decide, by decide, by decide,
    by decide, by decide, ⟨2147483640, by decide, by decide⟩,
    0, 14, by decide, by decide, by decide, by decide⟩

end FVSS
